import Mathlib

/-!
Verification of the topology and route-change analysis engine of
`meshtastic-telemetry-logger`.

The Python sources are shallowly embedded:
* strings are `List Char` (`Str`), with structural-recursive versions of the
  string operations the code uses (`split`, `strip`, single-char `replace`);
* `datetime` instants are integers (seconds); the tolerant ISO parsing is
  abstracted away, records carry an already-parsed timestamp;
* dictionaries are association lists, `set`s are duplicate-free lists built
  by membership-checked insertion (matching Python dict/set iteration order).

Sections:
1. string helpers;
2. `routing_topology_analyzer.py` — `analyze_current_routes` (grouping,
   windowing, route-change detection) and the per-destination status logic of
   `generate_topology_html`;
3. `generate_simple_traceroute_analysis.py` — `analyze_route`,
   `load_traceroute_data`, degree/role classification,
   `calculate_network_depth`;
4. `generate_traceroute_visualization.py` — `add_route_to_graph` and the
   centrality part of `analyze_topology`.
-/

/-! ## 1. Strings as `List Char` -/

/-- Python strings, embedded as lists of characters. -/
abbrev Str := List Char

/-- `s.split(c)` for a one-character separator: `"a,b".split(',') = ["a","b"]`,
`"".split(',') = [""]`. -/
def splitOnChar (c : Char) : Str → List Str
  | [] => [[]]
  | x :: xs =>
    let r := splitOnChar c xs
    if x = c then [] :: r
    else
      match r with
      | [] => [[x]]
      | y :: ys => (x :: y) :: ys

/-- `s.strip()`: drop whitespace from both ends. -/
def stripStr (s : Str) : Str :=
  ((s.dropWhile Char.isWhitespace).reverse.dropWhile Char.isWhitespace).reverse

/-- Consecutive ordered pairs of a list: `pairsOf [a,b,c] = [(a,b),(b,c)]`.
Embeds the `for i in range(len(hops) - 1)` loops. -/
def pairsOf {α : Type} : List α → List (α × α)
  | a :: b :: t => (a, b) :: pairsOf (b :: t)
  | _ => []

/-! ## 2. `routing_topology_analyzer.py` -/

/-- The `direction` column: `'forward'` or `'return'`. -/
inductive Dir : Type
  | fwd
  | ret
deriving DecidableEq, Repr

/-- One raw row of `routing_log.csv`, with the timestamp already parsed to an
instant (seconds): `timestamp`, `destination`, `source`, `direction`,
`route_hops`, `signal_strengths`, `hop_count`, `success` (raw string,
`"true"`/`"false"`). -/
structure RouteRec : Type where
  ts : Int
  destination : Str
  source : Str
  direction : Dir
  route_hops : Str
  signal_strengths : Str
  hop_count : Int
  success : Str
deriving DecidableEq, Repr

/-- One entry of `routes_by_dest[dest][direction]` (lines 118-124):
`{'timestamp', 'route_hops', 'signal_strengths', 'hop_count', 'success'}`. -/
structure Entry : Type where
  ts : Int
  route_hops : Str
  signal_strengths : Str
  hop_count : Int
  success : Bool
deriving DecidableEq, Repr

/-- Line 118-124: the dict appended for one route row; `success` is the
comparison `route['success'] == 'true'`. -/
def entryOfRec (r : RouteRec) : Entry :=
  ⟨r.ts, r.route_hops, r.signal_strengths, r.hop_count, r.success = "true".data⟩

/-- The two per-destination lists `{'forward': [], 'return': []}`. -/
structure DestData : Type where
  fwd : List Entry
  ret : List Entry
deriving DecidableEq, Repr

/-- `route_changes[dest][direction]` (lines 142-146):
`{'current', 'previous', 'changed_at'}`. -/
structure ChangeEvent : Type where
  current : Str
  previous : Option Str
  changed_at : Int
deriving DecidableEq, Repr

/-- The destination filter of line 92:
`('!ab123456', 'ab123456')`. -/
def badDest : List Str := ["!ab123456".data, "ab123456".data]

/-- Append an entry to the direction's list of a `DestData`. -/
def pushDir (dd : DestData) (d : Dir) (e : Entry) : DestData :=
  match d with
  | .fwd => { dd with fwd := dd.fwd ++ [e] }
  | .ret => { dd with ret := dd.ret ++ [e] }

/-- `routes_by_dest` update for one row (lines 112-124): find the
destination's bucket (creating it at the end, as Python dict insertion does)
and append the entry to its direction list. -/
def addToGroups (gs : List (Str × DestData)) (r : RouteRec) : List (Str × DestData) :=
  match gs with
  | [] => [(r.destination, pushDir ⟨[], []⟩ r.direction (entryOfRec r))]
  | (d, dd) :: rest =>
    if d = r.destination then (d, pushDir dd r.direction (entryOfRec r)) :: rest
    else (d, dd) :: addToGroups rest r

/-- Stable insertion of an entry after every earlier entry with a timestamp
`≤` its own — the effect of Python's stable `sort(key=lambda x: x['timestamp'])`
on the element arriving last. -/
def insertByTs (e : Entry) : List Entry → List Entry
  | [] => [e]
  | x :: xs => if e.ts < x.ts then e :: x :: xs else x :: insertByTs e xs

/-- Python's stable ascending sort by the `timestamp` key (line 131). -/
def sortByTs (l : List Entry) : List Entry :=
  l.foldl (fun acc e => insertByTs e acc) []

/-- Route-change detection on one (destination, direction) list, already
sorted by timestamp (lines 134-146): with more than one entry, take the
newest entry's `route_hops` as `current_route` and all earlier `route_hops`
as `previous_routes`; emit a change iff `current_route not in
previous_routes`, with `previous = previous_routes[-1]` and `changed_at` the
newest entry's timestamp. -/
def detectRouteChange (s : List Entry) : Option ChangeEvent :=
  match s.reverse with
  | last :: prev :: rest =>
    -- `previous_routes` is `(rest.reverse ++ [prev]).map route_hops`;
    -- membership does not depend on the order, so test the reversed list.
    if last.route_hops ∈ (prev :: rest).map (·.route_hops) then none
    else some ⟨last.route_hops, some prev.route_hops, last.ts⟩
  | _ => none

/-- Lines 91-110: drop rows whose `destination` is in `badDest` (line 92) and
rows outside the time window (lines 108-110, `(now - ts)` seconds above
`time_window_hours`), then build `routes_by_dest` in arrival order. -/
def groupRoutes (now wHours : Int) (routes : List RouteRec) : List (Str × DestData) :=
  (routes.filter fun r =>
      decide (r.destination ∉ badDest) && decide (now - r.ts ≤ wHours * 3600)).foldl
    addToGroups []

/-- Line 131: sort every direction list by timestamp. -/
def sortGroups (gs : List (Str × DestData)) : List (Str × DestData) :=
  gs.map fun g => (g.1, ⟨sortByTs g.2.fwd, sortByTs g.2.ret⟩)

/-- The `routes_by_dest` value returned by `analyze_current_routes`. -/
def analyzeGroups (now wHours : Int) (routes : List RouteRec) : List (Str × DestData) :=
  sortGroups (groupRoutes now wHours routes)

/-- The `route_changes` mapping of lines 129-146, flattened to a list keyed by
(destination, direction): for each destination in order, run detection on the
sorted `'forward'` then `'return'` list. -/
def changesOf (gs : List (Str × DestData)) : List ((Str × Dir) × ChangeEvent) :=
  gs.flatMap fun g =>
    (match detectRouteChange g.2.fwd with
      | some ev => [((g.1, Dir.fwd), ev)]
      | none => []) ++
    (match detectRouteChange g.2.ret with
      | some ev => [((g.1, Dir.ret), ev)]
      | none => [])

/-- The `route_changes` result of `analyze_current_routes`. -/
def analyzeChanges (now wHours : Int) (routes : List RouteRec) :
    List ((Str × Dir) × ChangeEvent) :=
  changesOf (analyzeGroups now wHours routes)

/-- Association-list lookup (Python dict access by key). -/
def lookupGroup : List (Str × DestData) → Str → Option DestData
  | [], _ => none
  | (d, dd) :: rest, k => if d = k then some dd else lookupGroup rest k

/-- The four per-destination route statuses of `generate_topology_html`
(lines 191-207). -/
inductive RouteStatus : Type
  | symmetric
  | asymmetric
  | oneSided
  | failed
deriving DecidableEq, Repr

/-- `route_hops.replace('→', '←')` (line 192): the pattern is a single
character, so the replacement substitutes that character pointwise. -/
def replaceArrow (s : Str) : Str :=
  s.map fun c => if c = '→' then '←' else c

/-- Lines 186-207: `current_forward`/`current_return` are the last entries of
the (sorted) direction lists; with both present the route is "Symmetric"
exactly when the forward `route_hops` string equals the return `route_hops`
string with `'→'` replaced by `'←'`; with exactly one present, "Partial";
with none, "Route failed". -/
def statusOf (dd : DestData) : RouteStatus :=
  match dd.fwd.getLast?, dd.ret.getLast? with
  | some cf, some cr =>
    if cf.route_hops = replaceArrow cr.route_hops then .symmetric else .asymmetric
  | some _, none => .oneSided
  | none, some _ => .oneSided
  | none, none => .failed

/-- Status of one destination of the analysis output. -/
def statusAt (gs : List (Str × DestData)) (d : Str) : Option RouteStatus :=
  (lookupGroup gs d).map statusOf

/-- Line 216: `[h.strip() for h in route_hops.split('→')]` — the hop list a
stored `route_hops` string denotes. -/
def parseArrowHops (s : Str) : List Str :=
  (splitOnChar '→' s).map stripStr

/-- Render a hop list the way `routing_log.csv` stores it: joined by `'→'`. -/
def joinArrowHops (hops : List Str) : Str :=
  (hops.intersperse "→".data).flatten

/-- Modelled from the spec: the spec-mandated asymmetry-check semantics (§4.7)
that the source's string comparison was intended to implement — symmetric iff
the return path's hop list, reversed in true sequence order, equals the
forward path's hop list. -/
def specSymmetric (fwdHops retHops : List Str) : Prop :=
  retHops.reverse = fwdHops

/-- Line 270-271 of `generate_routing_topology_section`: keep a row only if
neither its `destination` nor its `source` is in the exclusion set. -/
def keepGoodRec (r : RouteRec) : Bool :=
  decide (r.destination ∉ badDest) && decide (r.source ∉ badDest)

/-- The grouped history produced by `generate_routing_topology_section`:
the destination/source exclusion filter followed by
`analyze_current_routes`. -/
def sectionGroups (now wHours : Int) (routes : List RouteRec) : List (Str × DestData) :=
  analyzeGroups now wHours (routes.filter keepGoodRec)

/-! ## 3. `generate_simple_traceroute_analysis.py` -/

/-- `self.connections : defaultdict(set)`, embedded as an association list
from a node to its duplicate-free list of out-neighbours, both in insertion
order. Node identifiers are kept abstract (the Python code only compares them
for equality). -/
abbrev ConnMap (α : Type) := List (α × List α)

/-- `self.connections[a].add(b)`: find `a`'s bucket (creating it at the end if
absent, as `defaultdict` does) and add `b` to the set. -/
def addConn {α : Type} [DecidableEq α] : ConnMap α → α → α → ConnMap α
  | [], a, b => [(a, [b])]
  | (k, vs) :: rest, a, b =>
    if k = a then (k, if b ∈ vs then vs else vs ++ [b]) :: rest
    else (k, vs) :: addConn rest a b

/-- `self.connections.get(n, set())` lookup. -/
def lookupConn {α : Type} [DecidableEq α] : ConnMap α → α → Option (List α)
  | [], _ => none
  | (k, vs) :: rest, n => if k = n then some vs else lookupConn rest n

/-- `self.route_counts[key] += 1` on a counter keyed by the ordered pair
(the Python key is the string `f"{from}->{to}"`). -/
def bumpCount {α : Type} [DecidableEq α] :
    List ((α × α) × Nat) → α × α → List ((α × α) × Nat)
  | [], p => [(p, 1)]
  | (q, w) :: rest, p =>
    if q = p then (q, w + 1) :: rest else (q, w) :: bumpCount rest p

/-- One raw row of `traceroute_log.csv`, timestamp already parsed:
`timestamp`, `target`, `hops` (comma-separated string), `success`
(raw string `"true"`/`"false"`). -/
structure TraceRow : Type where
  ts : Int
  target : Str
  hops : Str
  success : Str
deriving DecidableEq, Repr

/-- The mutable state of `SimpleTracerouteAnalyzer`: `self.connections`,
`self.route_counts` and the `self.routes` list of analyzed rows. -/
structure STAState : Type where
  conn : ConnMap Str
  counts : List ((Str × Str) × Nat)
  routes : List TraceRow
deriving DecidableEq, Repr

/-- The sentinel tokens rejected by `analyze_route` (line 93). -/
def sentinels4 : List Str :=
  ["NO_ROUTE".data, "TIMEOUT".data, "ERROR".data, "PARSE_ERROR".data]

/-- The sentinel tokens excluded by `load_traceroute_data` (line 79) —
note: `PARSE_ERROR` is not among them. -/
def sentinels3 : List Str := ["NO_ROUTE".data, "TIMEOUT".data, "ERROR".data]

/-- Lines 91-109, `analyze_route(target, hops_str)` (the `target` argument is
unused by the body): reject empty or sentinel hop strings, split on `','`,
strip each token and drop empty ones, then record every consecutive pair in
`connections` and `route_counts`. -/
def analyze_route (conn : ConnMap Str) (counts : List ((Str × Str) × Nat))
    (hops_str : Str) : ConnMap Str × List ((Str × Str) × Nat) :=
  if hops_str = [] ∨ hops_str ∈ sentinels4 then (conn, counts)
  else
    let hops := ((splitOnChar ',' hops_str).map stripStr).filter (· ≠ ([] : Str))
    if hops = [] then (conn, counts)
    else
      (pairsOf hops).foldl
        (fun st p => (addConn st.1 p.1 p.2, bumpCount st.2 p)) (conn, counts)

/-- One iteration of the `load_traceroute_data` row loop (lines 70-84):
a row inside the recency window with `success == 'true'` and `hops` not one of
`NO_ROUTE`/`TIMEOUT`/`ERROR` is passed to `analyze_route` and then appended to
`self.routes`; every other row is skipped. -/
def staStep (cutoff : Int) (s : STAState) (row : TraceRow) : STAState :=
  if cutoff ≤ row.ts ∧ row.success = "true".data ∧ row.hops ∉ sentinels3 then
    let ck := analyze_route s.conn s.counts row.hops
    ⟨ck.1, ck.2, s.routes ++ [row]⟩
  else s

/-- `load_traceroute_data`: fold the row loop over the file from the empty
state (`cutoff` is the already-computed `now - timedelta(hours=hours)`). -/
def load_traceroute_data (cutoff : Int) (rows : List TraceRow) : STAState :=
  rows.foldl (staStep cutoff) ⟨[], [], []⟩

/-- Line 145: `outgoing = len(self.connections.get(node, set()))`. -/
def outgoingCount {α : Type} [DecidableEq α] (conn : ConnMap α) (n : α) : Nat :=
  ((lookupConn conn n).getD []).length

/-- Line 146: `incoming = sum(1 for connections in self.connections.values()
if node in connections)`. -/
def incomingCount {α : Type} [DecidableEq α] (conn : ConnMap α) (n : α) : Nat :=
  (conn.filter fun p => decide (n ∈ p.2)).length

/-- Line 147: `total_degree = outgoing + incoming`. -/
def totalDegree {α : Type} [DecidableEq α] (conn : ConnMap α) (n : α) : Nat :=
  outgoingCount conn n + incomingCount conn n

/-- The role labels of line 155. -/
inductive Role : Type
  | hub
  | relay
  | endpoint
deriving DecidableEq, Repr

/-- Line 155: `role = "HUB" if degrees['total'] > 2 else "RELAY" if
degrees['total'] > 1 else "END"`. -/
def roleOf {α : Type} [DecidableEq α] (conn : ConnMap α) (n : α) : Role :=
  if totalDegree conn n > 2 then .hub
  else if totalDegree conn n > 1 then .relay
  else .endpoint

/-- All node identifiers occurring in the connection map (keys and
neighbour-set members) — the `all_nodes` set of lines 127-130. -/
def nodesOfConn {α : Type} [DecidableEq α] (conn : ConnMap α) : Finset α :=
  (conn.flatMap fun p => p.1 :: p.2).toFinset

/-- The finite node set the BFS of `calculate_network_depth` can ever touch
at a given state: graph nodes plus queued nodes, minus visited ones. Used
only as a termination measure. -/
def bfsRest {α : Type} [DecidableEq α] (conn : ConnMap α) (visited : List α)
    (queue : List (α × Nat)) : Finset α :=
  ((conn.flatMap fun p => p.1 :: p.2) ++ queue.map Prod.fst).toFinset \ visited.toFinset

/-- The `while queue:` loop of `calculate_network_depth` (lines 250-260):
pop `(node, depth)` from the front; skip visited nodes; otherwise mark
visited, raise the running maximum to `depth`, and enqueue every unvisited
out-neighbour at `depth + 1`. -/
def bfsLoop {α : Type} [DecidableEq α] (conn : ConnMap α) (visited : List α)
    (queue : List (α × Nat)) (acc : Nat) : Nat :=
  match queue with
  | [] => acc
  | (n, d) :: rest =>
    if n ∈ visited then bfsLoop conn visited rest acc
    else
      let visited' := n :: visited
      let nbrs := (lookupConn conn n).getD []
      bfsLoop conn visited'
        (rest ++ (nbrs.filter (· ∉ visited')).map (fun m => (m, d + 1)))
        (max acc d)
termination_by ((bfsRest conn visited queue).card, queue.length)
decreasing_by
  · -- visited node popped: the candidate set only shrinks, the queue shrinks
    have hsub : bfsRest conn visited rest ⊆ bfsRest conn visited ((n, d) :: rest) := by
      intro x hx
      simp only [bfsRest, Finset.mem_sdiff, List.mem_toFinset, List.mem_append,
        List.mem_map, List.map_cons, List.mem_cons] at hx ⊢
      exact ⟨hx.1.elim Or.inl (fun h => Or.inr (Or.inr h)), hx.2⟩
    rcases lt_or_eq_of_le (Finset.card_le_card hsub) with h | h
    · exact Prod.Lex.left _ _ h
    · rw [h]
      exact Prod.Lex.right _ (by simp)
  · -- new node visited: it leaves the candidate set for good
    have hlook : ∀ (c : ConnMap α) (k : α),
        ∀ m ∈ (lookupConn c k).getD [], m ∈ c.flatMap fun p => p.1 :: p.2 := by
      intro c
      induction c with
      | nil => intro k m hm; simp [lookupConn] at hm
      | cons hd tl ih =>
        intro k m hm
        rw [lookupConn] at hm
        by_cases hk : hd.1 = k
        · simp only [if_pos hk, Option.getD_some] at hm
          exact List.mem_flatMap.mpr ⟨hd, List.mem_cons_self _ _, List.mem_cons_of_mem _ hm⟩
        · simp only [if_neg hk] at hm
          exact List.mem_flatMap.mpr
            (by rcases List.mem_flatMap.mp (ih k m hm) with ⟨p, hp, hmp⟩
                exact ⟨p, List.mem_cons_of_mem _ hp, hmp⟩)
    have hmem : n ∈ bfsRest conn visited ((n, d) :: rest) := by
      simp only [bfsRest, Finset.mem_sdiff, List.mem_toFinset]
      exact ⟨by simp, by assumption⟩
    have hsub : bfsRest conn (n :: visited)
        (rest ++ (((lookupConn conn n).getD []).filter
          (· ∉ n :: visited)).map (fun m => (m, d + 1))) ⊆
        (bfsRest conn visited ((n, d) :: rest)).erase n := by
      intro x hx
      simp only [bfsRest, Finset.mem_sdiff, List.mem_toFinset, List.mem_append,
        List.mem_map, List.map_cons, List.mem_cons, Finset.mem_erase] at hx ⊢
      obtain ⟨hsrc, hnv⟩ := hx
      have hxn : x ≠ n := fun hxe => hnv (Or.inl hxe)
      have hxv : x ∉ visited := fun hxe => hnv (Or.inr hxe)
      refine ⟨hxn, ?_, hxv⟩
      rcases hsrc with h | ⟨q, hq, he⟩
      · exact Or.inl h
      · rcases hq with hq | hq
        · exact Or.inr (Or.inr ⟨q, hq, he⟩)
        · obtain ⟨m, hm, rfl⟩ := hq
          rcases List.mem_filter.mp hm with ⟨hmn, _⟩
          exact Or.inl (he ▸ hlook conn n m hmn)
    exact Prod.Lex.left _ _
      (lt_of_le_of_lt (Finset.card_le_card hsub) (Finset.card_erase_lt_of_mem hmem))

/-- BFS from one start node: `visited = set(); queue = [(start_node, 0)];
local_max = 0` (lines 246-248). -/
def bfsFrom {α : Type} [DecidableEq α] (conn : ConnMap α) (start : α) : Nat :=
  bfsLoop conn [] [(start, 0)] 0

/-- `calculate_network_depth` (lines 239-264): the maximum BFS depth over all
start nodes in `self.connections` (keys), starting from 0. -/
def calculate_network_depth {α : Type} [DecidableEq α] (conn : ConnMap α) : Nat :=
  conn.foldl (fun m p => max m (bfsFrom conn p.1)) 0

/-! ## 4. `generate_traceroute_visualization.py` -/

/-- The `nx.DiGraph` of `TracerouteVisualizer`: explicit node list (insertion
order, duplicate-free by construction) and weighted edge map. -/
structure TRVGraph (α : Type) : Type where
  nodes : List α
  edges : List ((α × α) × Nat)
deriving DecidableEq, Repr

/-- The empty graph `nx.DiGraph()`. -/
def emptyTRV {α : Type} : TRVGraph α := ⟨[], []⟩

/-- Lines 107-109: `if hop not in self.graph: self.graph.add_node(hop)`. -/
def addNode {α : Type} [DecidableEq α] (nodes : List α) (n : α) : List α :=
  if n ∈ nodes then nodes else nodes ++ [n]

/-- Lines 120-124: increment the `(from, to)` edge's weight, creating it at
weight 1 if absent. -/
def bumpEdge {α : Type} [DecidableEq α] :
    List ((α × α) × Nat) → α × α → List ((α × α) × Nat)
  | [], p => [(p, 1)]
  | (q, w) :: rest, p =>
    if q = p then (q, w + 1) :: rest else (q, w) :: bumpEdge rest p

/-- `add_route_to_graph` after hop parsing (lines 106-124): add every hop as
a node, then for each consecutive pair bump the edge weight (the
`route_counts` bookkeeping of lines 116-118 is identical to the edge-weight
update and is omitted from this graph value). -/
def addRouteHops {α : Type} [DecidableEq α] (g : TRVGraph α) (hops : List α) :
    TRVGraph α :=
  if hops = [] then g
  else
    let g1 : TRVGraph α := ⟨hops.foldl addNode g.nodes, g.edges⟩
    (pairsOf hops).foldl (fun g p => ⟨g.nodes, bumpEdge g.edges p⟩) g1

/-- `add_route_to_graph(target, hops_str)` (lines 95-124): sentinel and empty
strings are rejected, then the comma-separated hop string is parsed exactly as
in `analyze_route` and handed to the graph update. -/
def add_route_to_graph (g : TRVGraph Str) (hops_str : Str) : TRVGraph Str :=
  if hops_str = [] ∨ hops_str ∈ sentinels4 then g
  else addRouteHops g (((splitOnChar ',' hops_str).map stripStr).filter (· ≠ ([] : Str)))

/-- The weight of an edge, 0 when absent. -/
def weightOf {α : Type} [DecidableEq α] (es : List ((α × α) × Nat)) (p : α × α) : Nat :=
  match es with
  | [] => 0
  | (q, w) :: rest => if q = p then w else weightOf rest p

/-- `self.graph.number_of_nodes()`. -/
def numNodes {α : Type} (g : TRVGraph α) : Nat := g.nodes.length

/-- Modelled from the spec: the out-neighbour list of the directed graph, for
the shortest-path counting below (the source delegates to
`networkx.betweenness_centrality`, which is not part of this repository;
§4.5 of the spec prescribes "pairwise shortest-path dependency counting"
over the directed graph). -/
def succList {α : Type} [DecidableEq α] (g : TRVGraph α) (s : α) : List α :=
  (((g.edges.map Prod.fst).filter fun p => decide (p.1 = s)).map Prod.snd).dedup

/-- Modelled from the spec: the number of directed walks of length `k` from
`s` to `t`; a shortest walk is a shortest path, so at the distance this
counts shortest paths. -/
def walkCount {α : Type} [DecidableEq α] (g : TRVGraph α) : Nat → α → α → Nat
  | 0, s, t => if s = t then 1 else 0
  | k + 1, s, t => ((succList g s).map fun m => walkCount g k m t).sum

/-- Modelled from the spec: the directed shortest-path distance, searched up
to `numNodes g` (any shortest path has fewer than `numNodes g` edges);
`none` when unreachable. -/
def distSP {α : Type} [DecidableEq α] (g : TRVGraph α) (s t : α) : Option Nat :=
  (List.range (numNodes g)).find? fun k => decide (0 < walkCount g k s t)

/-- Modelled from the spec: `σ_st`, the number of shortest `s→t` paths. -/
def sigmaSP {α : Type} [DecidableEq α] (g : TRVGraph α) (s t : α) : Nat :=
  match distSP g s t with
  | some d => walkCount g d s t
  | none => 0

/-- Modelled from the spec: `σ_st(v)`, the number of shortest `s→t` paths
passing through `v`. -/
def sigmaThrough {α : Type} [DecidableEq α] (g : TRVGraph α) (s t v : α) : Nat :=
  match distSP g s v, distSP g v t, distSP g s t with
  | some d1, some d2, some d =>
    if d1 + d2 = d then walkCount g d1 s v * walkCount g d2 v t else 0
  | _, _, _ => 0

/-- Modelled from the spec: unnormalised betweenness centrality of `v` —
the sum over ordered pairs `s ≠ t` (both distinct from `v`) of the pair
dependency `σ_st(v)/σ_st`. (networkx normalises by a positive constant,
which does not change which node is maximal.) -/
def betweenness {α : Type} [DecidableEq α] (g : TRVGraph α) (v : α) : ℚ :=
  ((g.nodes.filter fun s => decide (s ≠ v)).map fun s =>
    ((g.nodes.filter fun t => decide (t ≠ v) && decide (t ≠ s)).map fun t =>
      if sigmaSP g s t = 0 then 0
      else (sigmaThrough g s t v : ℚ) / (sigmaSP g s t : ℚ)).sum).sum

/-- Python's `max(centrality, key=centrality.get)`: scan the keys in order,
keeping the first element attaining the maximum value. -/
def argmaxQ {α : Type} (f : α → ℚ) : List α → Option α
  | [] => none
  | x :: xs => some (xs.foldl (fun best y => if f best < f y then y else best) x)

/-- The centrality fields of the `analyze_topology` report. `none` models a
key that is absent from the returned Python dict. -/
structure CentralityReport (α : Type) : Type where
  most_central_node : Option α
  centrality_score : Option ℚ
deriving DecidableEq, Repr

/-- Lines 336-337 and 365-375 of `analyze_topology`: an empty graph returns
the empty dict; with at most 50 nodes the betweenness centrality is computed
and `most_central = max(centrality, key=centrality.get)` with score
`centrality.get(most_central, 0)`; with more than 50 nodes the two keys are
never written (both `none`). -/
def analyzeCentrality {α : Type} [DecidableEq α] (g : TRVGraph α) : CentralityReport α :=
  if numNodes g = 0 then ⟨none, none⟩
  else if numNodes g ≤ 50 then
    match argmaxQ (betweenness g) g.nodes with
    | some m => ⟨some m, some (betweenness g m)⟩
    | none => ⟨none, some 0⟩
  else ⟨none, none⟩

/-! ## 5. Theorems -/

/-- C1: the asymmetry check of `generate_topology_html` (line 192) compares
the forward `route_hops` string with the return `route_hops` string after a
mere glyph substitution `'→' ↦ '←'`, which does not reorder the hop tokens.
On a destination whose current forward path is `!a→!b→!c` and current return
path is `!c→!b→!a` — exactly the reversed hop list, Symmetric under the
spec-mandated semantics (`specSymmetric`) — the code reports Asymmetric. -/
theorem c1_asymmetry_code_bug :
    statusAt
        (analyzeGroups 0 24
          [⟨0, "!d".data, "!s".data, Dir.fwd, "!a→!b→!c".data, [], 3, "true".data⟩,
           ⟨0, "!d".data, "!s".data, Dir.ret, "!c→!b→!a".data, [], 3, "true".data⟩])
        "!d".data = some RouteStatus.asymmetric
    ∧ specSymmetric (parseArrowHops "!a→!b→!c".data) (parseArrowHops "!c→!b→!a".data) := by
  constructor
  · decide
  · show _ = _
    decide

/-- Unfolding `detectRouteChange` on a list whose reverse is known. -/
theorem detectRouteChange_eq (last prev : Entry) (rest : List Entry) (s : List Entry)
    (h : s.reverse = last :: prev :: rest) :
    detectRouteChange s =
      if last.route_hops ∈ (prev :: rest).map (fun e => e.route_hops) then none
      else some ⟨last.route_hops, some prev.route_hops, last.ts⟩ := by
  rw [detectRouteChange, h]

/-- C2: on a (destination, direction) history sorted by timestamp with at
least two entries, `analyze_current_routes` (lines 134-146) emits a change
event iff the newest entry's path is absent from all prior paths, and the
event carries the immediately prior entry's path as `previous` and the newest
entry's timestamp as `changed_at`; with fewer than two entries no event is
emitted. -/
theorem c2_change_detection :
    (∀ (l : List Entry) (p last : Entry),
        (l ++ [p, last]).Pairwise (fun a b => a.ts ≤ b.ts) →
        ((detectRouteChange (l ++ [p, last]) = none ↔
            last.route_hops ∈ (l ++ [p]).map (fun e => e.route_hops))
         ∧ (last.route_hops ∉ (l ++ [p]).map (fun e => e.route_hops) →
             detectRouteChange (l ++ [p, last]) =
               some ⟨last.route_hops, some p.route_hops, last.ts⟩)))
    ∧ ∀ s : List Entry, s.length < 2 → detectRouteChange s = none := by
  constructor
  · intro l p last _
    have hrev : (l ++ [p, last]).reverse = last :: p :: l.reverse := by
      simp
    have hdet := detectRouteChange_eq last p l.reverse (l ++ [p, last]) hrev
    have hmem : (last.route_hops ∈ (p :: l.reverse).map (fun e => e.route_hops)) ↔
        last.route_hops ∈ (l ++ [p]).map (fun e => e.route_hops) := by
      simp only [List.mem_map]
      constructor
      · rintro ⟨e, he, hh⟩
        rcases List.mem_cons.mp he with rfl | he'
        · exact ⟨e, List.mem_append.mpr (Or.inr (List.mem_singleton.mpr rfl)), hh⟩
        · exact ⟨e, List.mem_append.mpr (Or.inl (List.mem_reverse.mp he')), hh⟩
      · rintro ⟨e, he, hh⟩
        rcases List.mem_append.mp he with he' | he'
        · exact ⟨e, List.mem_cons_of_mem _ (List.mem_reverse.mpr he'), hh⟩
        · rcases List.mem_singleton.mp he' with rfl
          exact ⟨e, List.mem_cons_self _ _, hh⟩
    constructor
    · rw [hdet]
      by_cases h : last.route_hops ∈ (p :: l.reverse).map (fun e => e.route_hops)
      · rw [if_pos h]
        exact iff_of_true rfl (hmem.mp h)
      · rw [if_neg h]
        exact iff_of_false (Option.some_ne_none _) (fun hc => h (hmem.mpr hc))
    · intro hnot
      rw [hdet, if_neg (fun h => hnot (hmem.mp h))]
  · intro s hs
    match s, hs with
    | [], _ => rfl
    | [x], _ => rfl

/-- C2 witness: the spec's example history `[(1,"A,B"), (2,"A,B"), (3,"A,C")]`
produces exactly the event `{current="A,C", previous="A,B", changed_at=3}`,
and a singleton history produces none. -/
theorem c2_change_detection_witness :
    detectRouteChange
        [⟨1, "A,B".data, [], 1, true⟩, ⟨2, "A,B".data, [], 1, true⟩,
         ⟨3, "A,C".data, [], 1, true⟩] =
      some ⟨"A,C".data, some "A,B".data, 3⟩
    ∧ detectRouteChange [⟨1, "A,B".data, [], 1, true⟩] = none := by
  refine ⟨?_, c2_change_detection.2 [⟨1, "A,B".data, [], 1, true⟩] (by decide)⟩
  exact (c2_change_detection.1 [⟨1, "A,B".data, [], 1, true⟩] ⟨2, "A,B".data, [], 1, true⟩
    ⟨3, "A,C".data, [], 1, true⟩ (by decide)).2 (by decide)

/-- C4 counterexample: the exclusion filters (lines 92 and 270-271) test only
the `destination` and `source` columns. A route whose hop chain contains the
excluded node `!ab123456` — but whose destination and source do not — is kept
and produces a route-history entry whose hop string contains the excluded
node. -/
theorem c4_hopchain_not_filtered :
    sectionGroups 0 24
        [⟨0, "!d".data, "!s".data, Dir.fwd, "!x→!ab123456→!d".data, [], 2, "true".data⟩] =
      [("!d".data, ⟨[⟨0, "!x→!ab123456→!d".data, [], 2, true⟩], []⟩)]
    ∧ "!ab123456".data ∈ parseArrowHops "!x→!ab123456→!d".data := by
  exact ⟨by decide, by decide⟩

/-- C4 (amended): a route record whose `destination` or `source` equals one of
the excluded node IDs is dropped entirely by the topology-section pipeline —
removing it from the input changes nothing; the excluded ID is not searched
for inside hop chains. -/
theorem c4_exclusion_dest_source (now w : Int) (xs ys : List RouteRec) (r : RouteRec)
    (h : r.destination ∈ badDest ∨ r.source ∈ badDest) :
    sectionGroups now w (xs ++ r :: ys) = sectionGroups now w (xs ++ ys) := by
  have hbad : keepGoodRec r = false := by
    rcases h with h | h <;> simp [keepGoodRec, h]
  unfold sectionGroups
  congr 1
  simp [List.filter_append, hbad]

/-- C4 witness: a record whose destination is the excluded `!ab123456`
contributes nothing to the analysis. -/
theorem c4_exclusion_witness :
    sectionGroups 0 24
        [⟨0, "!ab123456".data, "!s".data, Dir.fwd, "!x→!y".data, [], 1, "true".data⟩] =
      sectionGroups 0 24 [] :=
  c4_exclusion_dest_source 0 24 [] []
    ⟨0, "!ab123456".data, "!s".data, Dir.fwd, "!x→!y".data, [], 1, "true".data⟩
    (Or.inl (by decide))

/-- Well-formedness of a connection map as built by the analyzer: keys are
distinct (Python dict) and every neighbour list is duplicate-free (Python
set). -/
def ConnWF {α : Type} [DecidableEq α] (c : ConnMap α) : Prop :=
  (c.map Prod.fst).Nodup ∧ ∀ p ∈ c, p.2.Nodup

instance {α : Type} [DecidableEq α] (c : ConnMap α) : Decidable (ConnWF c) := by
  unfold ConnWF
  infer_instance

/-- A key of `addConn c a b` is a key of `c` or the inserted `a`. -/
theorem addConn_keys_mem {α : Type} [DecidableEq α] {c : ConnMap α} {a b x : α}
    (h : x ∈ (addConn c a b).map Prod.fst) : x ∈ c.map Prod.fst ∨ x = a := by
  induction c with
  | nil =>
    simp [addConn] at h
    exact Or.inr h
  | cons hd tl ih =>
    rw [addConn] at h
    by_cases hk : hd.1 = a
    · rw [if_pos hk] at h
      simp only [List.map_cons, List.mem_cons] at h ⊢
      exact h.elim (fun he => Or.inl (Or.inl he)) (fun he => Or.inl (Or.inr he))
    · rw [if_neg hk] at h
      simp only [List.map_cons, List.mem_cons] at h ⊢
      rcases h with he | he
      · exact Or.inl (Or.inl he)
      · exact (ih he).elim (fun hx => Or.inl (Or.inr hx)) Or.inr

/-- `addConn` preserves well-formedness. -/
theorem addConn_wf {α : Type} [DecidableEq α] {c : ConnMap α} (a b : α)
    (h : ConnWF c) : ConnWF (addConn c a b) := by
  induction c with
  | nil =>
    exact ⟨by simp [addConn], by simp [addConn]⟩
  | cons hd tl ih =>
    obtain ⟨hkeys, hvals⟩ := h
    rw [List.map_cons, List.nodup_cons] at hkeys
    have htl : ConnWF tl := ⟨hkeys.2, fun p hp => hvals p (List.mem_cons_of_mem _ hp)⟩
    rw [addConn]
    by_cases hk : hd.1 = a
    · rw [if_pos hk]
      refine ⟨by rw [List.map_cons]; exact List.nodup_cons.mpr ⟨hkeys.1, hkeys.2⟩, ?_⟩
      intro p hp
      rcases List.mem_cons.mp hp with rfl | hp'
      · by_cases hb : b ∈ hd.2
        · simpa [hb] using hvals hd (List.mem_cons_self _ _)
        · simp only [if_neg hb]
          exact List.Nodup.append (hvals hd (List.mem_cons_self _ _)) (by simp)
            (by simpa using hb)
      · exact hvals _ (List.mem_cons_of_mem _ hp')
    · rw [if_neg hk]
      obtain ⟨hk2, hv2⟩ := ih htl
      refine ⟨?_, ?_⟩
      · rw [List.map_cons, List.nodup_cons]
        refine ⟨fun hmem => ?_, hk2⟩
        rcases addConn_keys_mem hmem with hx | hx
        · exact hkeys.1 hx
        · exact hk hx
      · intro p hp
        rcases List.mem_cons.mp hp with rfl | hp'
        · exact hvals _ (List.mem_cons_self _ _)
        · exact hv2 _ hp'

/-- The pair-fold of `analyze_route` preserves well-formedness of the
connection component. -/
theorem foldPairs_wf {α : Type} [DecidableEq α] (ps : List (α × α))
    (c : ConnMap α) (k : List ((α × α) × Nat)) (h : ConnWF c) :
    ConnWF ((ps.foldl (fun st p => (addConn st.1 p.1 p.2, bumpCount st.2 p)) (c, k)).1) := by
  induction ps generalizing c k with
  | nil => exact h
  | cons p ps ih => exact ih _ _ (addConn_wf p.1 p.2 h)

/-- `analyze_route` preserves well-formedness. -/
theorem analyze_route_wf (c : ConnMap Str) (k : List ((Str × Str) × Nat)) (s : Str)
    (h : ConnWF c) : ConnWF (analyze_route c k s).1 := by
  rw [analyze_route]
  split
  · exact h
  · dsimp only
    split
    · exact h
    · exact foldPairs_wf _ _ _ h

/-- The loader's connection map is always well-formed. -/
theorem load_traceroute_data_wf (cutoff : Int) (rows : List TraceRow) :
    ConnWF (load_traceroute_data cutoff rows).conn := by
  suffices h : ∀ (s : STAState), ConnWF s.conn →
      ConnWF (rows.foldl (staStep cutoff) s).conn by
    exact h ⟨[], [], []⟩ (by decide)
  induction rows with
  | nil => exact fun s hs => hs
  | cons r rs ih =>
    intro s hs
    refine ih _ ?_
    rw [staStep]
    split
    · exact analyze_route_wf s.conn s.counts r.hops hs
    · exact hs

/-- The spec's "unique out-neighbours of n" count. -/
def uniqOut {α : Type} [DecidableEq α] (conn : ConnMap α) (n : α) : Nat :=
  ((lookupConn conn n).getD []).toFinset.card

/-- The spec's "unique predecessors of n" count: the number of distinct
sources having `n` among their successors. -/
def uniqIn {α : Type} [DecidableEq α] (conn : ConnMap α) (n : α) : Nat :=
  ((conn.filter fun p => decide (n ∈ p.2)).map Prod.fst).toFinset.card

/-- A successful `lookupConn` returns a stored neighbour list. -/
theorem lookupConn_mem {α : Type} [DecidableEq α] {c : ConnMap α} {n : α}
    {vs : List α} (h : lookupConn c n = some vs) : (n, vs) ∈ c := by
  induction c with
  | nil => simp [lookupConn] at h
  | cons hd tl ih =>
    rw [lookupConn] at h
    by_cases hk : hd.1 = n
    · rw [if_pos hk] at h
      obtain rfl := Option.some_injective _ h
      exact List.mem_cons.mpr (Or.inl (by rw [← hk]))
    · rw [if_neg hk] at h
      exact List.mem_cons_of_mem _ (ih h)

/-- On a well-formed map, the code's `outgoing` count (line 145) is the
number of unique out-neighbours. -/
theorem outgoingCount_eq {α : Type} [DecidableEq α] (c : ConnMap α) (n : α)
    (h : ConnWF c) : outgoingCount c n = uniqOut c n := by
  rw [outgoingCount, uniqOut]
  cases hl : lookupConn c n with
  | none => simp
  | some vs =>
    have hnd : vs.Nodup := h.2 _ (lookupConn_mem hl)
    simp [List.toFinset_card_of_nodup hnd]

/-- On a well-formed map, the code's `incoming` count (line 146) is the
number of unique predecessors. -/
theorem incomingCount_eq {α : Type} [DecidableEq α] (c : ConnMap α) (n : α)
    (h : ConnWF c) : incomingCount c n = uniqIn c n := by
  rw [incomingCount, uniqIn]
  have hnd : ((c.filter fun p => decide (n ∈ p.2)).map Prod.fst).Nodup :=
    ((List.filter_sublist c).map Prod.fst).nodup h.1
  rw [List.toFinset_card_of_nodup hnd, List.length_map]

/-- C3 (amended): in any graph built by `load_traceroute_data` — or any
well-formed connection map — a node's role (line 155) is `HUB` iff its
unique-out-neighbour count plus unique-predecessor count exceeds 2, `RELAY`
iff that total is exactly 2, and `END` iff it is at most 1 (the original
claim's "Relay when total_degree is 1" does not hold: degree-1 nodes are
`END`). -/
theorem c3_role_classification :
    (∀ (conn : ConnMap Str), ConnWF conn → ∀ n : Str,
        (roleOf conn n = Role.hub ↔ 2 < uniqOut conn n + uniqIn conn n)
        ∧ (roleOf conn n = Role.relay ↔ uniqOut conn n + uniqIn conn n = 2)
        ∧ (roleOf conn n = Role.endpoint ↔ uniqOut conn n + uniqIn conn n ≤ 1))
    ∧ ∀ (cutoff : Int) (rows : List TraceRow),
        ConnWF (load_traceroute_data cutoff rows).conn := by
  refine ⟨fun conn hwf n => ?_, load_traceroute_data_wf⟩
  have ht : totalDegree conn n = uniqOut conn n + uniqIn conn n := by
    rw [totalDegree, outgoingCount_eq conn n hwf, incomingCount_eq conn n hwf]
  rw [roleOf, ht]
  by_cases h1 : uniqOut conn n + uniqIn conn n > 2
  · rw [if_pos h1]
    exact ⟨iff_of_true rfl h1, iff_of_false (fun h => Role.noConfusion h) (by omega),
      iff_of_false (fun h => Role.noConfusion h) (by omega)⟩
  · rw [if_neg h1]
    by_cases h2 : uniqOut conn n + uniqIn conn n > 1
    · rw [if_pos h2]
      exact ⟨iff_of_false (fun h => Role.noConfusion h) h1, iff_of_true rfl (by omega),
        iff_of_false (fun h => Role.noConfusion h) (by omega)⟩
    · rw [if_neg h2]
      exact ⟨iff_of_false (fun h => Role.noConfusion h) h1,
        iff_of_false (fun h => Role.noConfusion h) (by omega),
        iff_of_true rfl (by omega)⟩

/-- C3 witness: on the one-edge graph `A→B` (built from the single traceroute
row with hops `"A,B"`), node `A`'s role is characterised by the theorem. -/
theorem c3_role_classification_witness :
    roleOf (load_traceroute_data 0 [⟨0, "t".data, "A,B".data, "true".data⟩]).conn "A".data
        = Role.endpoint ↔
      uniqOut (load_traceroute_data 0 [⟨0, "t".data, "A,B".data, "true".data⟩]).conn "A".data
        + uniqIn (load_traceroute_data 0 [⟨0, "t".data, "A,B".data, "true".data⟩]).conn "A".data
        ≤ 1 :=
  (c3_role_classification.1 _ (c3_role_classification.2 0 _) _).2.2

/-- C3 counterexample: in the graph built from the single route `A→B`, node
`A` has total degree 1 and is classified `END`, not `RELAY` as the claim
states for degree-1 nodes. -/
theorem c3_degree_one_not_relay :
    roleOf (load_traceroute_data 0 [⟨0, "t".data, "A,B".data, "true".data⟩]).conn "A".data
        = Role.endpoint
    ∧ totalDegree (load_traceroute_data 0 [⟨0, "t".data, "A,B".data, "true".data⟩]).conn
        "A".data = 1
    ∧ Role.endpoint ≠ Role.relay := by
  exact ⟨by decide, by decide, by decide⟩

/-- The loader-step's connection/count components depend only on the state's
connection/count components (the `routes` list feeds nothing back). -/
theorem staStep_congr (cutoff : Int) (s1 s2 : STAState) (r : TraceRow)
    (h1 : s1.conn = s2.conn) (h2 : s1.counts = s2.counts) :
    (staStep cutoff s1 r).conn = (staStep cutoff s2 r).conn
    ∧ (staStep cutoff s1 r).counts = (staStep cutoff s2 r).counts := by
  rw [staStep, staStep]
  split
  · rw [h1, h2]
    exact ⟨rfl, rfl⟩
  · exact ⟨h1, h2⟩

/-- States agreeing on connections and counts keep agreeing under the loader
fold. -/
theorem staFold_congr (cutoff : Int) (rows : List TraceRow) :
    ∀ (s1 s2 : STAState), s1.conn = s2.conn → s1.counts = s2.counts →
    (rows.foldl (staStep cutoff) s1).conn = (rows.foldl (staStep cutoff) s2).conn
    ∧ (rows.foldl (staStep cutoff) s1).counts = (rows.foldl (staStep cutoff) s2).counts := by
  induction rows with
  | nil => exact fun s1 s2 h1 h2 => ⟨h1, h2⟩
  | cons r rs ih =>
    intro s1 s2 h1 h2
    obtain ⟨h1', h2'⟩ := staStep_congr cutoff s1 s2 r h1 h2
    exact ih _ _ h1' h2'

/-- A row whose hops field is empty or a sentinel token leaves the connection
graph and route counters unchanged. -/
theorem staStep_sentinel (cutoff : Int) (s : STAState) (row : TraceRow)
    (h : row.hops ∈ ([] : Str) :: sentinels4) :
    (staStep cutoff s row).conn = s.conn ∧ (staStep cutoff s row).counts = s.counts := by
  rw [staStep]
  split
  · have hg : row.hops = [] ∨ row.hops ∈ sentinels4 := List.mem_cons.mp h
    rw [analyze_route, if_pos hg]
    exact ⟨rfl, rfl⟩
  · exact ⟨rfl, rfl⟩

/-- A row whose hops field is `NO_ROUTE`, `TIMEOUT` or `ERROR` is skipped
entirely by the loader (line 79). -/
theorem staStep_sentinel3 (cutoff : Int) (s : STAState) (row : TraceRow)
    (h : row.hops ∈ sentinels3) : staStep cutoff s row = s := by
  rw [staStep, if_neg (fun hc => hc.2.2 h)]

/-- C6 (amended): an observation whose hop field is one of `NO_ROUTE`,
`TIMEOUT`, `ERROR`, `PARSE_ERROR` or the empty string contributes no edges
and no route counts — removing it changes neither `connections` nor
`route_counts`; but only the three tokens filtered at load time (`NO_ROUTE`,
`TIMEOUT`, `ERROR`) also keep the row out of the analyzed-routes history:
a `PARSE_ERROR` or empty-string row with `success == 'true'` inside the
window is still appended to `self.routes`. -/
theorem c6_sentinel_drop (cutoff : Int) (xs ys : List TraceRow) (row : TraceRow)
    (h : row.hops ∈ ([] : Str) :: sentinels4) :
    ((load_traceroute_data cutoff (xs ++ row :: ys)).conn
        = (load_traceroute_data cutoff (xs ++ ys)).conn
      ∧ (load_traceroute_data cutoff (xs ++ row :: ys)).counts
        = (load_traceroute_data cutoff (xs ++ ys)).counts)
    ∧ (row.hops ∈ sentinels3 →
        load_traceroute_data cutoff (xs ++ row :: ys)
          = load_traceroute_data cutoff (xs ++ ys)) := by
  rw [load_traceroute_data, load_traceroute_data, List.foldl_append, List.foldl_append,
    List.foldl_cons]
  constructor
  · obtain ⟨h1, h2⟩ := staStep_sentinel cutoff (xs.foldl (staStep cutoff) ⟨[], [], []⟩) row h
    exact staFold_congr cutoff ys _ _ h1 h2
  · intro h3
    rw [staStep_sentinel3 cutoff _ row h3]

/-- C6 witness: a single `PARSE_ERROR` row yields the same (empty) connection
graph as no row at all. -/
theorem c6_sentinel_drop_witness :
    (load_traceroute_data 0 [⟨0, "t".data, "PARSE_ERROR".data, "true".data⟩]).conn
      = (load_traceroute_data 0 []).conn :=
  (c6_sentinel_drop 0 [] [] ⟨0, "t".data, "PARSE_ERROR".data, "true".data⟩ (by decide)).1.1

/-- C6 counterexample: a recent successful observation with hop field
`PARSE_ERROR` contributes zero edges, yet it is appended to the
analyzed-routes history (`self.routes`) because the load-time filter
(line 79) omits `PARSE_ERROR` — the claim's "adds no route-history entry"
fails. -/
theorem c6_parse_error_in_history :
    (load_traceroute_data 0 [⟨0, "t".data, "PARSE_ERROR".data, "true".data⟩]).conn = []
    ∧ (load_traceroute_data 0 [⟨0, "t".data, "PARSE_ERROR".data, "true".data⟩]).routes
        = [⟨0, "t".data, "PARSE_ERROR".data, "true".data⟩] := by
  exact ⟨by decide, by decide⟩

/-- One `bumpEdge` adds exactly 1 to the bumped pair's weight and leaves
every other pair's weight unchanged (creating an absent pair at weight 1). -/
theorem weightOf_bumpEdge {α : Type} [DecidableEq α] (es : List ((α × α) × Nat))
    (p q : α × α) :
    weightOf (bumpEdge es p) q = weightOf es q + (if q = p then 1 else 0) := by
  induction es with
  | nil =>
    by_cases h : q = p
    · simp [bumpEdge, weightOf, h]
    · have h' : ¬p = q := fun he => h he.symm
      simp [bumpEdge, weightOf, h, h']
  | cons hd tl ih =>
    obtain ⟨r, w⟩ := hd
    rw [bumpEdge]
    by_cases hr : r = p
    · rw [if_pos hr]
      by_cases hq : r = q
      · rw [weightOf, weightOf, if_pos hq, if_pos hq, if_pos (by rw [← hq, hr])]
      · rw [weightOf, weightOf, if_neg hq, if_neg hq,
          if_neg (fun he => hq (by rw [he, ← hr]))]
        omega
    · rw [if_neg hr]
      by_cases hq : r = q
      · rw [weightOf, weightOf, if_pos hq, if_pos hq,
          if_neg (fun he => hr (by rw [hq, he]))]
        omega
      · rw [weightOf, weightOf, if_neg hq, if_neg hq, ih]

/-- Folding `bumpEdge` over a pair list adds each pair's multiplicity. -/
theorem weightOf_foldBump {α : Type} [DecidableEq α] (ps : List (α × α)) :
    ∀ (es : List ((α × α) × Nat)) (q : α × α),
    weightOf (ps.foldl bumpEdge es) q = weightOf es q + ps.count q := by
  induction ps with
  | nil => intro es q; simp
  | cons p ps ih =>
    intro es q
    rw [List.foldl_cons, ih, weightOf_bumpEdge, List.count_cons]
    by_cases h : q = p
    · subst h
      simp only [beq_self_eq_true, if_pos rfl, if_true]
      omega
    · have hb : ¬((p == q) = true) := by
        simp only [beq_iff_eq]
        exact fun he => h he.symm
      rw [if_neg h, if_neg hb]
      omega

/-- The edge map of `addRouteHops` is the bump-fold over the consecutive
pairs (adding nodes never touches edges). -/
theorem addRouteHops_edges {α : Type} [DecidableEq α] (g : TRVGraph α) (hops : List α) :
    (addRouteHops g hops).edges = (pairsOf hops).foldl bumpEdge g.edges := by
  rw [addRouteHops]
  split
  · rename_i h
    rw [h]
    rfl
  · have hfold : ∀ (ps : List (α × α)) (g0 : TRVGraph α),
        (ps.foldl (fun g p => ⟨g.nodes, bumpEdge g.edges p⟩) g0).edges
          = ps.foldl bumpEdge g0.edges := by
      intro ps
      induction ps with
      | nil => intro g0; rfl
      | cons p ps ih => intro g0; rw [List.foldl_cons, List.foldl_cons, ih]
    exact hfold _ _

/-- Hop sequences shorter than 2 have no consecutive pairs. -/
theorem pairsOf_short {α : Type} (hops : List α) (h : hops.length < 2) :
    pairsOf hops = [] := by
  match hops, h with
  | [], _ => rfl
  | [x], _ => rfl

/-- C5: `add_route_to_graph` adds, per consecutive ordered pair of the hop
sequence, exactly 1 to that pair's directed edge weight (creating absent
edges at weight 1 — `weightOf` of an absent pair is 0); sequences shorter
than 2 leave the edge map untouched; `[a,b,c]` from the empty graph produces
exactly the edge map `{(a,b):1, (b,c):1}`; and N calls with the same pair
accumulate weight N. -/
theorem c5_add_route {α : Type} [DecidableEq α] :
    (∀ (g : TRVGraph α) (hops : List α) (p : α × α),
        weightOf (addRouteHops g hops).edges p
          = weightOf g.edges p + (pairsOf hops).count p)
    ∧ (∀ (g : TRVGraph α) (hops : List α), hops.length < 2 →
        (addRouteHops g hops).edges = g.edges)
    ∧ (∀ a b c : α, (a, b) ≠ (b, c) →
        (addRouteHops emptyTRV [a, b, c]).edges = [((a, b), 1), ((b, c), 1)])
    ∧ ∀ (n : Nat) (a b : α),
        weightOf ((fun g => addRouteHops g [a, b])^[n] emptyTRV).edges (a, b) = n := by
  refine ⟨fun g hops p => ?_, fun g hops h => ?_, fun a b c h => ?_, fun n a b => ?_⟩
  · rw [addRouteHops_edges, weightOf_foldBump]
  · rw [addRouteHops_edges, pairsOf_short hops h, List.foldl_nil]
  · rw [addRouteHops_edges]
    simp [pairsOf, bumpEdge, h]
  · induction n with
    | zero => rfl
    | succ n ih =>
      rw [Function.iterate_succ_apply', addRouteHops_edges, weightOf_foldBump, ih]
      simp [pairsOf]

/-- C5 witness: concrete instances of all four parts over `Nat` node IDs. -/
theorem c5_add_route_witness :
    weightOf (addRouteHops (emptyTRV : TRVGraph Nat) [0, 1, 2]).edges (0, 1)
        = weightOf (emptyTRV : TRVGraph Nat).edges (0, 1) + (pairsOf [0, 1, 2]).count (0, 1)
    ∧ (addRouteHops (emptyTRV : TRVGraph Nat) [0]).edges = (emptyTRV : TRVGraph Nat).edges
    ∧ (addRouteHops (emptyTRV : TRVGraph Nat) [0, 1, 2]).edges = [((0, 1), 1), ((1, 2), 1)]
    ∧ weightOf ((fun g => addRouteHops g [0, 1])^[3] (emptyTRV : TRVGraph Nat)).edges (0, 1) = 3 :=
  ⟨c5_add_route.1 _ _ _, c5_add_route.2.1 _ _ (by decide),
    c5_add_route.2.2.1 0 1 2 (by decide), c5_add_route.2.2.2 3 0 1⟩

/-- Neighbour lists live inside the graph's node set. -/
theorem lookup_mem_nodes {α : Type} [DecidableEq α] (conn : ConnMap α) (n m : α)
    (hm : m ∈ (lookupConn conn n).getD []) : m ∈ nodesOfConn conn := by
  cases hl : lookupConn conn n with
  | none => rw [hl] at hm; simp at hm
  | some vs =>
    rw [hl] at hm
    simp only [Option.getD_some] at hm
    exact List.mem_toFinset.mpr
      (List.mem_flatMap.mpr ⟨(n, vs), lookupConn_mem hl, List.mem_cons_of_mem _ hm⟩)

/-- Invariant bound for the depth BFS loop: if all visited nodes are distinct
graph nodes and every queued depth is at most the number of visited nodes,
the loop's result stays below the number of graph nodes. -/
theorem bfsLoop_le {α : Type} [DecidableEq α] (conn : ConnMap α) (visited : List α)
    (queue : List (α × Nat)) (acc : Nat) :
    visited.Nodup →
    (∀ x ∈ visited, x ∈ nodesOfConn conn) →
    (∀ q ∈ queue, q.1 ∈ nodesOfConn conn ∧ q.2 ≤ visited.length) →
    acc ≤ (nodesOfConn conn).card - 1 →
    bfsLoop conn visited queue acc ≤ (nodesOfConn conn).card - 1 := by
  induction visited, queue, acc using bfsLoop.induct with
  | conn => exact conn
  | case1 visited acc =>
    intro _ _ _ hacc
    rw [bfsLoop]
    exact hacc
  | case2 visited acc n d rest hvis ih =>
    intro h1 h2 h3 hacc
    rw [bfsLoop, if_pos hvis]
    exact ih h1 h2 (fun q hq => h3 q (List.mem_cons_of_mem _ hq)) hacc
  | case3 visited acc n d rest hvis visited' nbrs ih =>
    intro h1 h2 h3 hacc
    rw [bfsLoop, if_neg hvis]
    have hn := h3 (n, d) (List.mem_cons_self _ _)
    have hlen : (n :: visited).length ≤ (nodesOfConn conn).card := by
      have hnd : (n :: visited).Nodup := List.nodup_cons.mpr ⟨hvis, h1⟩
      have hsub : (n :: visited).toFinset ⊆ nodesOfConn conn := by
        intro x hx
        rcases List.mem_cons.mp (List.mem_toFinset.mp hx) with rfl | hx'
        · exact hn.1
        · exact h2 x hx'
      calc (n :: visited).length = (n :: visited).toFinset.card :=
            (List.toFinset_card_of_nodup hnd).symm
        _ ≤ (nodesOfConn conn).card := Finset.card_le_card hsub
    refine ih (List.nodup_cons.mpr ⟨hvis, h1⟩) ?_ ?_ ?_
    · intro x hx
      rcases List.mem_cons.mp hx with rfl | hx'
      · exact hn.1
      · exact h2 x hx'
    · intro q hq
      rcases List.mem_append.mp hq with hq' | hq'
      · obtain ⟨hq1, hq2⟩ := h3 q (List.mem_cons_of_mem _ hq')
        exact ⟨hq1, Nat.le_trans hq2 (Nat.le_succ _)⟩
      · obtain ⟨m, hm, rfl⟩ := List.mem_map.mp hq'
        refine ⟨lookup_mem_nodes conn n m (List.mem_filter.mp hm).1, ?_⟩
        exact Nat.succ_le_succ hn.2
    · have hd : d ≤ (nodesOfConn conn).card - 1 := by
        have := hn.2
        simp only [List.length_cons] at hlen
        omega
      exact max_le hacc hd

/-- `bfsFrom` at a graph node is bounded by the node count minus one. -/
theorem bfsFrom_le {α : Type} [DecidableEq α] (conn : ConnMap α) (start : α)
    (hs : start ∈ nodesOfConn conn) :
    bfsFrom conn start ≤ (nodesOfConn conn).card - 1 := by
  refine bfsLoop_le conn [] [(start, 0)] 0 List.nodup_nil (by simp) ?_ (Nat.zero_le _)
  intro q hq
  rcases List.mem_singleton.mp hq with rfl
  exact ⟨hs, Nat.le_refl 0⟩

/-- A `max`-fold stays below a bound dominating its seed and every entry. -/
theorem foldl_max_le {β : Type} (f : β → Nat) (bound : Nat) :
    ∀ (l : List β) (m : Nat), m ≤ bound → (∀ b ∈ l, f b ≤ bound) →
    l.foldl (fun acc b => max acc (f b)) m ≤ bound := by
  intro l
  induction l with
  | nil => exact fun m hm _ => hm
  | cons b l ih =>
    intro m hm hl
    rw [List.foldl_cons]
    exact ih _ (max_le hm (hl b (List.mem_cons_self _ _)))
      (fun x hx => hl x (List.mem_cons_of_mem _ hx))

/-- C8: `calculate_network_depth` is a total function (the visited-set BFS
terminates on every connection map, cyclic ones included — totality of
`bfsLoop` is established by the well-founded recursion it is defined by),
returns 0 on the empty graph, and its result is at most `|nodes| - 1`. -/
theorem c8_network_depth {α : Type} [DecidableEq α] :
    calculate_network_depth ([] : ConnMap α) = 0
    ∧ ∀ conn : ConnMap α,
        calculate_network_depth conn ≤ (nodesOfConn conn).card - 1 := by
  refine ⟨rfl, fun conn => ?_⟩
  refine foldl_max_le _ _ conn 0 (Nat.zero_le _) ?_
  intro p hp
  exact bfsFrom_le conn p.1
    (List.mem_toFinset.mpr (List.mem_flatMap.mpr ⟨p, hp, List.mem_cons_self _ _⟩))

/-- The fold inside `argmaxQ` returns an element of seed-plus-list whose
value dominates the seed's and every listed element's value (Python `max`
with a key function: only strictly greater candidates replace the current
best). -/
theorem argmax_fold_spec {α : Type} (f : α → ℚ) :
    ∀ (xs : List α) (b : α),
    (xs.foldl (fun best y => if f best < f y then y else best) b = b
        ∨ xs.foldl (fun best y => if f best < f y then y else best) b ∈ xs)
    ∧ f b ≤ f (xs.foldl (fun best y => if f best < f y then y else best) b)
    ∧ ∀ z ∈ xs, f z ≤ f (xs.foldl (fun best y => if f best < f y then y else best) b) := by
  intro xs
  induction xs with
  | nil => exact fun b => ⟨Or.inl rfl, le_refl _, by simp⟩
  | cons y ys ih =>
    intro b
    rw [List.foldl_cons]
    obtain ⟨hmem, hle, hall⟩ := ih (if f b < f y then y else b)
    have hby : f b ≤ f (if f b < f y then y else b) := by
      by_cases h : f b < f y
      · rw [if_pos h]; exact le_of_lt h
      · rw [if_neg h]
    have hyy : f y ≤ f (if f b < f y then y else b) := by
      by_cases h : f b < f y
      · rw [if_pos h]
      · rw [if_neg h]; exact le_of_not_lt h
    refine ⟨?_, le_trans hby hle, ?_⟩
    · rcases hmem with h | h
      · rw [h]
        by_cases hc : f b < f y
        · rw [if_pos hc] at h ⊢
          exact Or.inr (List.mem_cons_self _ _)
        · rw [if_neg hc] at h ⊢
          exact Or.inl rfl
      · exact Or.inr (List.mem_cons_of_mem _ h)
    · intro z hz
      rcases List.mem_cons.mp hz with rfl | hz'
      · exact le_trans hyy hle
      · exact hall z hz'

/-- `argmaxQ` on a non-empty list returns a member of maximal value. -/
theorem argmaxQ_spec {α : Type} (f : α → ℚ) (x : α) (xs : List α) :
    ∃ m, argmaxQ f (x :: xs) = some m ∧ m ∈ x :: xs ∧ ∀ y ∈ x :: xs, f y ≤ f m := by
  obtain ⟨hmem, hle, hall⟩ := argmax_fold_spec f xs x
  refine ⟨_, rfl, ?_, ?_⟩
  · rcases hmem with h | h
    · rw [h]; exact List.mem_cons_self _ _
    · exact List.mem_cons_of_mem _ h
  · intro y hy
    rcases List.mem_cons.mp hy with rfl | hy'
    · exact hle
    · exact hall y hy'

/-- C7 (amended): betweenness centrality is computed only for graphs of at
most 50 nodes. Above 50 nodes, `analyze_topology` never writes the
`most_central_node`/`centrality_score` keys — both are absent (`none`), not
`none`/`0`, and no error is raised; on a non-empty graph of at most 50 nodes
`most_central_node` is a graph node of maximal betweenness centrality and
`centrality_score` is its score. -/
theorem c7_centrality_guard {α : Type} [DecidableEq α] :
    (∀ g : TRVGraph α, 50 < numNodes g → analyzeCentrality g = ⟨none, none⟩)
    ∧ ∀ g : TRVGraph α, 0 < numNodes g → numNodes g ≤ 50 →
        ∃ m, (analyzeCentrality g).most_central_node = some m
          ∧ m ∈ g.nodes
          ∧ (∀ v ∈ g.nodes, betweenness g v ≤ betweenness g m)
          ∧ (analyzeCentrality g).centrality_score = some (betweenness g m) := by
  constructor
  · intro g hg
    rw [analyzeCentrality, if_neg (by omega), if_neg (by omega)]
  · intro g h0 h50
    obtain ⟨x, xs, hn⟩ : ∃ x xs, g.nodes = x :: xs := by
      cases hnn : g.nodes with
      | nil => rw [numNodes, hnn] at h0; simp at h0
      | cons a l => exact ⟨a, l, rfl⟩
    obtain ⟨m, hm, hmem, hmax⟩ := argmaxQ_spec (betweenness g) x xs
    refine ⟨m, ?_, by rw [hn]; exact hmem, fun v hv => hmax v (by rw [← hn]; exact hv), ?_⟩
    · rw [analyzeCentrality, if_neg (by omega), if_pos h50, hn, hm]
    · rw [analyzeCentrality, if_neg (by omega), if_pos h50, hn, hm]

set_option maxRecDepth 8192 in
/-- C7 counterexample: on a 51-node chain graph, `analyze_topology` skips the
centrality block entirely, leaving both keys absent — in particular the
report does not contain `centrality_score = 0`. -/
theorem c7_over50_fields_absent :
    (analyzeCentrality (addRouteHops (emptyTRV : TRVGraph Nat) (List.range 51))).most_central_node
        = none
    ∧ (analyzeCentrality (addRouteHops (emptyTRV : TRVGraph Nat) (List.range 51))).centrality_score
        ≠ some 0 := by
  constructor
  · decide
  · decide

set_option maxRecDepth 8192 in
/-- C7 witness: the over-50 guard at a concrete 51-node graph and the
maximal-centrality conclusion at a concrete 2-node graph. -/
theorem c7_centrality_guard_witness :
    analyzeCentrality (addRouteHops (emptyTRV : TRVGraph Nat) (List.range 51)) = ⟨none, none⟩
    ∧ ∃ m, (analyzeCentrality (addRouteHops (emptyTRV : TRVGraph Nat) [0, 1])).most_central_node
          = some m
        ∧ m ∈ (addRouteHops (emptyTRV : TRVGraph Nat) [0, 1]).nodes
        ∧ (∀ v ∈ (addRouteHops (emptyTRV : TRVGraph Nat) [0, 1]).nodes,
            betweenness (addRouteHops (emptyTRV : TRVGraph Nat) [0, 1]) v
              ≤ betweenness (addRouteHops (emptyTRV : TRVGraph Nat) [0, 1]) m)
        ∧ (analyzeCentrality (addRouteHops (emptyTRV : TRVGraph Nat) [0, 1])).centrality_score
            = some (betweenness (addRouteHops (emptyTRV : TRVGraph Nat) [0, 1]) m) :=
  ⟨c7_centrality_guard.1 _ (by decide), c7_centrality_guard.2 _ (by decide) (by decide)⟩

/-- Select a `DestData`'s list for a direction. -/
def dirList (dd : DestData) : Dir → List Entry
  | .fwd => dd.fwd
  | .ret => dd.ret

/-- The keys after one `addToGroups` update: unchanged if the destination is
already a key, otherwise the destination is appended. -/
theorem addToGroups_keys (gs : List (Str × DestData)) (r : RouteRec) :
    (addToGroups gs r).map Prod.fst =
      if r.destination ∈ gs.map Prod.fst then gs.map Prod.fst
      else gs.map Prod.fst ++ [r.destination] := by
  induction gs with
  | nil => simp [addToGroups]
  | cons g gs ih =>
    obtain ⟨d, dd⟩ := g
    rw [addToGroups]
    by_cases hd : d = r.destination
    · rw [if_pos hd]
      rw [if_pos (by rw [List.map_cons]; exact List.mem_cons.mpr (Or.inl hd.symm))]
      simp
    · rw [if_neg hd]
      have hmem : (r.destination ∈ ((d, dd) :: gs).map Prod.fst)
          ↔ r.destination ∈ gs.map Prod.fst := by
        rw [List.map_cons]
        constructor
        · intro h
          rcases List.mem_cons.mp h with he | h'
          · exact absurd he.symm hd
          · exact h'
        · exact fun h => List.mem_cons_of_mem _ h
      by_cases hm : r.destination ∈ gs.map Prod.fst
      · rw [if_pos (hmem.mpr hm), List.map_cons, List.map_cons, ih, if_pos hm]
      · rw [if_neg (fun hc => hm (hmem.mp hc)), List.map_cons, List.map_cons, ih,
          if_neg hm, List.cons_append]

/-- The grouping fold keeps destination keys duplicate-free. -/
theorem groups_keys_nodup (rs : List RouteRec) :
    ∀ gs : List (Str × DestData), (gs.map Prod.fst).Nodup →
    ((rs.foldl addToGroups gs).map Prod.fst).Nodup := by
  induction rs with
  | nil => exact fun gs h => h
  | cons r rs ih =>
    intro gs h
    rw [List.foldl_cons]
    refine ih _ ?_
    rw [addToGroups_keys]
    by_cases hm : r.destination ∈ gs.map Prod.fst
    · rw [if_pos hm]
      exact h
    · rw [if_neg hm]
      exact List.Nodup.append h (List.nodup_singleton _)
        (List.disjoint_singleton.mpr hm)

/-- Sorting the per-destination lists does not change the keys. -/
theorem sortGroups_keys (gs : List (Str × DestData)) :
    (sortGroups gs).map Prod.fst = gs.map Prod.fst := by
  rw [sortGroups, List.map_map]
  rfl

/-- `analyzeGroups` has duplicate-free destination keys. -/
theorem analyzeGroups_keys_nodup (now w : Int) (routes : List RouteRec) :
    ((analyzeGroups now w routes).map Prod.fst).Nodup := by
  rw [analyzeGroups, sortGroups_keys, groupRoutes]
  exact groups_keys_nodup _ [] (by simp)

/-- Every change entry's destination is a key of the group list. -/
theorem changesOf_mem_keys {gs : List (Str × DestData)} {e : (Str × Dir) × ChangeEvent}
    (h : e ∈ changesOf gs) : e.1.1 ∈ gs.map Prod.fst := by
  obtain ⟨g, hg, he⟩ := List.mem_flatMap.mp h
  rcases List.mem_append.mp he with he' | he'
  · rcases hfd : detectRouteChange g.2.fwd with _ | ev
    · rw [hfd] at he'
      exact absurd he' (List.not_mem_nil _)
    · rw [hfd] at he'
      rcases List.mem_singleton.mp he' with rfl
      exact List.mem_map.mpr ⟨g, hg, rfl⟩
  · rcases hfd : detectRouteChange g.2.ret with _ | ev
    · rw [hfd] at he'
      exact absurd he' (List.not_mem_nil _)
    · rw [hfd] at he'
      rcases List.mem_singleton.mp he' with rfl
      exact List.mem_map.mpr ⟨g, hg, rfl⟩

/-- On duplicate-free keys, association-list lookup of a member's key returns
that member's value. -/
theorem lookupGroup_of_mem_nodup {gs : List (Str × DestData)} {g : Str × DestData}
    (hk : (gs.map Prod.fst).Nodup) (hg : g ∈ gs) : lookupGroup gs g.1 = some g.2 := by
  induction gs with
  | nil => exact absurd hg (List.not_mem_nil _)
  | cons hd tl ih =>
    rw [List.map_cons, List.nodup_cons] at hk
    rcases List.mem_cons.mp hg with rfl | hg'
    · rw [lookupGroup, if_pos rfl]
    · rw [lookupGroup]
      by_cases hd1 : hd.1 = g.1
      · exact absurd (hd1 ▸ List.mem_map.mpr ⟨g, hg', rfl⟩) hk.1
      · rw [if_neg hd1]
        exact ih hk.2 hg'

/-- Inversion of `detectRouteChange`: an emitted event comes from a list of
the form `l ++ [p, last]` and copies the newest entry's path and timestamp
and the immediately prior entry's path. -/
theorem detectRouteChange_some_shape {s : List Entry} {ev : ChangeEvent}
    (h : detectRouteChange s = some ev) :
    ∃ l p last, s = l ++ [p, last]
      ∧ ev = ⟨last.route_hops, some p.route_hops, last.ts⟩ := by
  rcases hrev : s.reverse with _ | ⟨last, _ | ⟨prev, rest⟩⟩
  · rw [detectRouteChange, hrev] at h
    exact absurd h (by simp)
  · rw [detectRouteChange, hrev] at h
    exact absurd h (by simp)
  · rw [detectRouteChange_eq last prev rest s hrev] at h
    by_cases hm : last.route_hops ∈ (prev :: rest).map (fun e => e.route_hops)
    · rw [if_pos hm] at h
      exact absurd h (by simp)
    · rw [if_neg hm] at h
      refine ⟨rest.reverse, prev, last, ?_, (Option.some_injective _ h).symm⟩
      have := congrArg List.reverse hrev
      rw [List.reverse_reverse] at this
      rw [this]
      simp

/-- At most one change entry per (destination, direction) key: the group
list's keys are distinct and each group contributes at most one entry per
direction. -/
theorem changesOf_count (gs : List (Str × DestData))
    (hk : (gs.map Prod.fst).Nodup) (k : Str × Dir) :
    ((changesOf gs).filter fun e => decide (e.1 = k)).length ≤ 1 := by
  induction gs with
  | nil => simp [changesOf]
  | cons g gs ih =>
    rw [List.map_cons, List.nodup_cons] at hk
    rw [changesOf, List.flatMap_cons, ← changesOf, List.filter_append, List.length_append]
    by_cases hkey : k.1 = g.1
    · have hrest : ((changesOf gs).filter fun e => decide (e.1 = k)) = [] := by
        rw [List.filter_eq_nil_iff]
        intro e he hdec
        have hek : e.1 = k := of_decide_eq_true hdec
        exact hk.1 (by rw [← hkey, ← hek]; exact changesOf_mem_keys he)
      rw [hrest]
      have hcontrib : (((match detectRouteChange g.2.fwd with
          | some ev => [((g.1, Dir.fwd), ev)]
          | none => []) ++
          (match detectRouteChange g.2.ret with
          | some ev => [((g.1, Dir.ret), ev)]
          | none => [])).filter
            fun e : (Str × Dir) × ChangeEvent => decide (e.1 = k)).length ≤ 1 := by
        rcases detectRouteChange g.2.fwd with _ | ev1 <;>
          rcases detectRouteChange g.2.ret with _ | ev2
        · simp
        · exact le_trans (List.length_filter_le _ _) (by simp)
        · exact le_trans (List.length_filter_le _ _) (by simp)
        · rw [List.singleton_append, List.filter_cons, List.filter_cons, List.filter_nil]
          by_cases h1 : (((g.1, Dir.fwd), ev1) : (Str × Dir) × ChangeEvent).1 = k
          · have h2 : ¬((((g.1, Dir.ret), ev2) : (Str × Dir) × ChangeEvent).1 = k) := by
              intro hc
              rw [← h1] at hc
              exact Dir.noConfusion (congrArg Prod.snd hc)
            have hb1 := decide_eq_true h1
            have hb2 := decide_eq_false h2
            simp [hb1, hb2]
          · have hb1 := decide_eq_false h1
            by_cases h2 : (((g.1, Dir.ret), ev2) : (Str × Dir) × ChangeEvent).1 = k
            · have hb2 := decide_eq_true h2
              simp [hb1, hb2]
            · have hb2 := decide_eq_false h2
              simp [hb1, hb2]
      simpa using hcontrib
    · have hcontrib : (((match detectRouteChange g.2.fwd with
          | some ev => [((g.1, Dir.fwd), ev)]
          | none => []) ++
          (match detectRouteChange g.2.ret with
          | some ev => [((g.1, Dir.ret), ev)]
          | none => [])).filter
            fun e : (Str × Dir) × ChangeEvent => decide (e.1 = k)).length = 0 := by
        rw [List.length_eq_zero, List.filter_eq_nil_iff]
        intro e he hdec
        have hek : e.1 = k := of_decide_eq_true hdec
        have : e.1.1 = g.1 := by
          rcases List.mem_append.mp he with he' | he'
          · rcases hfd : detectRouteChange g.2.fwd with _ | ev1 <;> rw [hfd] at he'
            · exact absurd he' (List.not_mem_nil _)
            · rcases List.mem_singleton.mp he' with rfl
              rfl
          · rcases hfd : detectRouteChange g.2.ret with _ | ev2 <;> rw [hfd] at he'
            · exact absurd he' (List.not_mem_nil _)
            · rcases List.mem_singleton.mp he' with rfl
              rfl
        exact hkey (by rw [← hek, this])
      rw [hcontrib]
      simpa using ih hk.2

/-- An emitted (key, event) pair comes from running the detector on the
looked-up group's list for that key's direction. -/
theorem changesOf_mem_detect {gs : List (Str × DestData)}
    (hk : (gs.map Prod.fst).Nodup) {k : Str × Dir} {ev : ChangeEvent}
    (h : (k, ev) ∈ changesOf gs) :
    ∃ dd, lookupGroup gs k.1 = some dd ∧ detectRouteChange (dirList dd k.2) = some ev := by
  obtain ⟨g, hg, he⟩ := List.mem_flatMap.mp h
  have hlk : lookupGroup gs g.1 = some g.2 := lookupGroup_of_mem_nodup hk hg
  rcases List.mem_append.mp he with he' | he'
  · rcases hfd : detectRouteChange g.2.fwd with _ | ev1 <;> rw [hfd] at he'
    · exact absurd he' (List.not_mem_nil _)
    · have heq := List.mem_singleton.mp he'
      have hk1 : k = (g.1, Dir.fwd) := congrArg Prod.fst heq
      have hev : ev = ev1 := congrArg Prod.snd heq
      refine ⟨g.2, by rw [hk1]; exact hlk, ?_⟩
      rw [hk1, hev]
      exact hfd
  · rcases hfd : detectRouteChange g.2.ret with _ | ev2 <;> rw [hfd] at he'
    · exact absurd he' (List.not_mem_nil _)
    · have heq := List.mem_singleton.mp he'
      have hk1 : k = (g.1, Dir.ret) := congrArg Prod.fst heq
      have hev : ev = ev2 := congrArg Prod.snd heq
      refine ⟨g.2, by rw [hk1]; exact hlk, ?_⟩
      rw [hk1, hev]
      exact hfd

/-- C9: within one run of `analyze_current_routes`, at most one change event
is recorded per (destination, direction) key, and any recorded event is
derived from the newest entry of that key's sorted windowed history: its
`current` and `changed_at` are the newest entry's path and timestamp and its
`previous` is the immediately prior entry's path. -/
theorem c9_single_change_per_key (now w : Int) (routes : List RouteRec) (k : Str × Dir) :
    (((analyzeChanges now w routes).filter fun e => decide (e.1 = k)).length ≤ 1)
    ∧ ∀ ev, (k, ev) ∈ analyzeChanges now w routes →
        ∃ dd l p last, lookupGroup (analyzeGroups now w routes) k.1 = some dd
          ∧ dirList dd k.2 = l ++ [p, last]
          ∧ ev = ⟨last.route_hops, some p.route_hops, last.ts⟩ := by
  constructor
  · exact changesOf_count _ (analyzeGroups_keys_nodup now w routes) k
  · intro ev hev
    obtain ⟨dd, hdd, hdet⟩ :=
      changesOf_mem_detect (analyzeGroups_keys_nodup now w routes) hev
    obtain ⟨l, p, last, hshape, hev'⟩ := detectRouteChange_some_shape hdet
    exact ⟨dd, l, p, last, hdd, hshape, hev'⟩

/-- Force a raw route row's `success` column to `'false'`. -/
def scrubRec (r : RouteRec) : RouteRec := { r with success := "false".data }

/-- Force a history entry's parsed `success` flag to `False`. -/
def scrubEntry (e : Entry) : Entry := { e with success := false }

/-- Scrub both direction lists of a `DestData`. -/
def scrubDD (dd : DestData) : DestData := ⟨dd.fwd.map scrubEntry, dd.ret.map scrubEntry⟩

/-- Entry building commutes with success-scrubbing. -/
theorem entryOfRec_scrub (r : RouteRec) :
    entryOfRec (scrubRec r) = scrubEntry (entryOfRec r) := rfl

/-- `pushDir` commutes with scrubbing. -/
theorem pushDir_scrub (dd : DestData) (d : Dir) (e : Entry) :
    pushDir (scrubDD dd) d (scrubEntry e) = scrubDD (pushDir dd d e) := by
  cases d <;> simp [pushDir, scrubDD]

/-- `addToGroups` commutes with scrubbing. -/
theorem addToGroups_scrub (gs : List (Str × DestData)) (r : RouteRec) :
    addToGroups (gs.map fun g => (g.1, scrubDD g.2)) (scrubRec r)
      = (addToGroups gs r).map fun g => (g.1, scrubDD g.2) := by
  induction gs with
  | nil =>
    have key : pushDir ⟨[], []⟩ r.direction (scrubEntry (entryOfRec r))
        = scrubDD (pushDir ⟨[], []⟩ r.direction (entryOfRec r)) := by
      have h := pushDir_scrub ⟨[], []⟩ r.direction (entryOfRec r)
      rwa [show scrubDD ⟨[], []⟩ = (⟨[], []⟩ : DestData) from rfl] at h
    show [(r.destination, pushDir ⟨[], []⟩ r.direction (entryOfRec (scrubRec r)))]
        = [(r.destination, scrubDD (pushDir ⟨[], []⟩ r.direction (entryOfRec r)))]
    rw [entryOfRec_scrub, key]
  | cons g gs ih =>
    rw [List.map_cons, addToGroups, addToGroups]
    by_cases hd : g.1 = r.destination
    · rw [if_pos (show g.1 = (scrubRec r).destination from hd), if_pos hd, List.map_cons,
        show (scrubRec r).direction = r.direction from rfl, entryOfRec_scrub, pushDir_scrub]
    · rw [if_neg (show ¬g.1 = (scrubRec r).destination from hd), if_neg hd, List.map_cons, ih]

/-- The grouping fold commutes with scrubbing. -/
theorem foldGroups_scrub (rs : List RouteRec) :
    ∀ gs : List (Str × DestData),
    (rs.map scrubRec).foldl addToGroups (gs.map fun g => (g.1, scrubDD g.2))
      = (rs.foldl addToGroups gs).map fun g => (g.1, scrubDD g.2) := by
  induction rs with
  | nil => exact fun gs => rfl
  | cons r rs ih =>
    intro gs
    rw [List.map_cons, List.foldl_cons, List.foldl_cons, addToGroups_scrub, ih]

/-- The window/exclusion filter of `analyze_current_routes` ignores the
`success` column. -/
theorem groupRoutes_scrub (now w : Int) (routes : List RouteRec) :
    groupRoutes now w (routes.map scrubRec)
      = (groupRoutes now w routes).map fun g => (g.1, scrubDD g.2) := by
  rw [groupRoutes, groupRoutes, List.filter_map]
  have hp : ((fun r => decide (r.destination ∉ badDest)
      && decide (now - r.ts ≤ w * 3600)) ∘ scrubRec)
      = fun r : RouteRec => decide (r.destination ∉ badDest)
        && decide (now - r.ts ≤ w * 3600) := rfl
  rw [hp]
  have h0 : ([] : List (Str × DestData)) = [].map fun g : Str × DestData =>
    (g.1, scrubDD g.2) := rfl
  rw [h0, foldGroups_scrub]
  rfl

/-- Timestamp-keyed insertion ignores the `success` flag. -/
theorem insertByTs_scrub (e : Entry) (l : List Entry) :
    insertByTs (scrubEntry e) (l.map scrubEntry) = (insertByTs e l).map scrubEntry := by
  induction l with
  | nil => rfl
  | cons x xs ih =>
    rw [List.map_cons, insertByTs, insertByTs]
    have hts : (scrubEntry e).ts = e.ts := rfl
    have hxs : (scrubEntry x).ts = x.ts := rfl
    by_cases h : e.ts < x.ts
    · rw [if_pos (by rw [hts, hxs]; exact h), if_pos h, List.map_cons, List.map_cons]
    · rw [if_neg (by rw [hts, hxs]; exact h), if_neg h, List.map_cons, ih]

/-- The stable timestamp sort ignores the `success` flag. -/
theorem sortByTs_scrub (l : List Entry) :
    sortByTs (l.map scrubEntry) = (sortByTs l).map scrubEntry := by
  rw [sortByTs, sortByTs]
  have h : ∀ (l : List Entry) (acc : List Entry),
      (l.map scrubEntry).foldl (fun acc e => insertByTs e acc) (acc.map scrubEntry)
        = (l.foldl (fun acc e => insertByTs e acc) acc).map scrubEntry := by
    intro l
    induction l with
    | nil => exact fun acc => rfl
    | cons x xs ih =>
      intro acc
      rw [List.map_cons, List.foldl_cons, List.foldl_cons, insertByTs_scrub, ih]
  exact h l []

/-- Change detection ignores the `success` flag. -/
theorem detectRouteChange_scrub (s : List Entry) :
    detectRouteChange (s.map scrubEntry) = detectRouteChange s := by
  rcases hrev : s.reverse with _ | ⟨last, _ | ⟨prev, rest⟩⟩
  · have h1 : (s.map scrubEntry).reverse = [] := by
      rw [← List.map_reverse, hrev, List.map_nil]
    rw [detectRouteChange, detectRouteChange, hrev, h1]
  · have h1 : (s.map scrubEntry).reverse = [scrubEntry last] := by
      rw [← List.map_reverse, hrev, List.map_cons, List.map_nil]
    rw [detectRouteChange, detectRouteChange, hrev, h1]
  · have h1 : (s.map scrubEntry).reverse
        = scrubEntry last :: scrubEntry prev :: rest.map scrubEntry := by
      rw [← List.map_reverse, hrev, List.map_cons, List.map_cons]
    rw [detectRouteChange_eq last prev rest s hrev,
      detectRouteChange_eq (scrubEntry last) (scrubEntry prev) (rest.map scrubEntry)
        (s.map scrubEntry) h1]
    have hhops : (scrubEntry prev :: rest.map scrubEntry).map (fun e => e.route_hops)
        = (prev :: rest).map fun e => e.route_hops := by
      rw [List.map_cons, List.map_cons, List.map_map]
      rfl
    rw [show (scrubEntry last).route_hops = last.route_hops from rfl, hhops,
      show (scrubEntry prev).route_hops = prev.route_hops from rfl,
      show (scrubEntry last).ts = last.ts from rfl]

/-- Per-destination sorting commutes with scrubbing. -/
theorem sortGroups_scrub (gs : List (Str × DestData)) :
    sortGroups (gs.map fun g => (g.1, scrubDD g.2))
      = (sortGroups gs).map fun g => (g.1, scrubDD g.2) := by
  rw [sortGroups, sortGroups, List.map_map, List.map_map]
  refine List.map_congr_left fun g _ => ?_
  show (g.1, (⟨sortByTs (scrubDD g.2).fwd, sortByTs (scrubDD g.2).ret⟩ : DestData))
      = (g.1, scrubDD ⟨sortByTs g.2.fwd, sortByTs g.2.ret⟩)
  rw [show (scrubDD g.2).fwd = g.2.fwd.map scrubEntry from rfl,
    show (scrubDD g.2).ret = g.2.ret.map scrubEntry from rfl,
    sortByTs_scrub, sortByTs_scrub]
  rfl

/-- The change list ignores the `success` flag. -/
theorem changesOf_scrub (gs : List (Str × DestData)) :
    changesOf (gs.map fun g => (g.1, scrubDD g.2)) = changesOf gs := by
  induction gs with
  | nil => rfl
  | cons g gs ih =>
    rw [List.map_cons, changesOf, changesOf, List.flatMap_cons, List.flatMap_cons]
    have hf : detectRouteChange (g.1, scrubDD g.2).2.fwd = detectRouteChange g.2.fwd := by
      rw [show (g.1, scrubDD g.2).2.fwd = g.2.fwd.map scrubEntry from rfl,
        detectRouteChange_scrub]
    have hr : detectRouteChange (g.1, scrubDD g.2).2.ret = detectRouteChange g.2.ret := by
      rw [show (g.1, scrubDD g.2).2.ret = g.2.ret.map scrubEntry from rfl,
        detectRouteChange_scrub]
    rw [hf, hr, ← changesOf, ← changesOf, ih]

/-- The status of a destination ignores the `success` flag. -/
theorem statusOf_scrub (dd : DestData) : statusOf (scrubDD dd) = statusOf dd := by
  rw [statusOf, statusOf]
  have hf : (scrubDD dd).fwd.getLast? = dd.fwd.getLast?.map scrubEntry := by
    rw [show (scrubDD dd).fwd = dd.fwd.map scrubEntry from rfl, List.getLast?_map]
  have hr : (scrubDD dd).ret.getLast? = dd.ret.getLast?.map scrubEntry := by
    rw [show (scrubDD dd).ret = dd.ret.map scrubEntry from rfl, List.getLast?_map]
  rw [hf, hr]
  rcases dd.fwd.getLast? with _ | cf <;> rcases dd.ret.getLast? with _ | cr <;> rfl

/-- Group lookup commutes with scrubbing. -/
theorem lookupGroup_scrub (gs : List (Str × DestData)) (d : Str) :
    lookupGroup (gs.map fun g => (g.1, scrubDD g.2)) d
      = (lookupGroup gs d).map scrubDD := by
  induction gs with
  | nil => rfl
  | cons g gs ih =>
    rw [List.map_cons, lookupGroup, lookupGroup]
    by_cases h : g.1 = d
    · rw [if_pos h, if_pos h]
      rfl
    · rw [if_neg h, if_neg h, ih]

/-- C10: the route-history builder, the change detector and the per-
destination status computation of the analyzer never filter on the `success`
flag: setting every record's `success` column to `'false'` leaves the
grouped history identical except for the stored flag, and leaves the change
list and every destination's Symmetric/Asymmetric/Partial/Failed status
unchanged. Concretely, two failed observations still produce a change event
and an Asymmetric status. -/
theorem c10_success_not_filtered (now w : Int) (routes : List RouteRec) :
    (analyzeGroups now w (routes.map scrubRec)
        = (analyzeGroups now w routes).map fun g => (g.1, scrubDD g.2))
    ∧ analyzeChanges now w (routes.map scrubRec) = analyzeChanges now w routes
    ∧ (∀ d, statusAt (analyzeGroups now w (routes.map scrubRec)) d
        = statusAt (analyzeGroups now w routes) d)
    ∧ analyzeChanges 0 24
        [⟨0, "!d".data, "!s".data, Dir.fwd, "!x".data, [], 1, "false".data⟩,
         ⟨1, "!d".data, "!s".data, Dir.fwd, "!y".data, [], 1, "false".data⟩]
        = [(("!d".data, Dir.fwd), ⟨"!y".data, some "!x".data, 1⟩)]
    ∧ statusAt (analyzeGroups 0 24
        [⟨0, "!d".data, "!s".data, Dir.fwd, "!x→!y".data, [], 1, "false".data⟩,
         ⟨0, "!d".data, "!s".data, Dir.ret, "!x→!y".data, [], 1, "false".data⟩])
        "!d".data = some RouteStatus.asymmetric := by
  have hg : analyzeGroups now w (routes.map scrubRec)
      = (analyzeGroups now w routes).map fun g => (g.1, scrubDD g.2) := by
    rw [analyzeGroups, analyzeGroups, groupRoutes_scrub, sortGroups_scrub]
  refine ⟨hg, ?_, ?_, by decide, by decide⟩
  · rw [analyzeChanges, analyzeChanges, hg, changesOf_scrub]
  · intro d
    rw [hg, statusAt, statusAt, lookupGroup_scrub]
    rcases lookupGroup (analyzeGroups now w routes) d with _ | dd
    · rfl
    · simp [statusOf_scrub]
